import Mathlib

/-!
Verification development for the FINRA dark-volume dashboard (`finra.py`).

The file shallowly embeds the analytical core of the source: the
fetch-or-cache layer (`download_finra_data`), the metrics derivation
(Bought / Sold / Total Volume / Buy-Sell Ratio / DP Index columns), the
rolling accumulation detector, and the per-tab filter / sort / truncate
pipelines.  Pandas float64 arithmetic is modelled by `FloatVal`: a finite
value is an exact fraction `num / den` with a positive denominator, and
the two infinities and the not-a-number element produced by division by
zero are explicit constructors; comparisons follow IEEE semantics.
Calendar dates are modelled as natural numbers: the source compares
dates formatted as YYYY-MM-DD strings, whose lexicographic order agrees
with chronological order.
-/

namespace Finra

/-- Model of a pandas float64 cell value: a finite rational represented
as an exact fraction `num / den` with positive denominator, one of the
two infinities produced by division by zero, or NaN. -/
inductive FloatVal where
  | finite (num : ℤ) (den : ℕ+)
  | posInf
  | negInf
  | nan
deriving DecidableEq

/-- IEEE-style `>=` comparison: any comparison with NaN is false;
positive infinity is at least everything non-NaN.  Finite fractions with
positive denominators compare by cross multiplication. -/
def FloatVal.geB : FloatVal → FloatVal → Bool
  | .nan, _ => false
  | _, .nan => false
  | .posInf, _ => true
  | .finite _ _, .posInf => false
  | .finite n₁ d₁, .finite n₂ d₂ =>
    decide (n₂ * ((d₁ : ℕ) : ℤ) ≤ n₁ * ((d₂ : ℕ) : ℤ))
  | .finite _ _, .negInf => true
  | .negInf, .negInf => true
  | .negInf, _ => false

/-- IEEE-style `<=` comparison: any comparison with NaN is false;
positive infinity is at most only itself. -/
def FloatVal.leB : FloatVal → FloatVal → Bool
  | .nan, _ => false
  | _, .nan => false
  | .negInf, _ => true
  | .finite _ _, .negInf => false
  | .finite n₁ d₁, .finite n₂ d₂ =>
    decide (n₁ * ((d₂ : ℕ) : ℤ) ≤ n₂ * ((d₁ : ℕ) : ℤ))
  | .finite _ _, .posInf => true
  | .posInf, .posInf => true
  | .posInf, _ => false

/-- IEEE-style strict `>` comparison. -/
def FloatVal.gtB : FloatVal → FloatVal → Bool
  | .nan, _ => false
  | _, .nan => false
  | .posInf, .posInf => false
  | .posInf, _ => true
  | .finite _ _, .posInf => false
  | .finite n₁ d₁, .finite n₂ d₂ =>
    decide (n₂ * ((d₁ : ℕ) : ℤ) < n₁ * ((d₂ : ℕ) : ℤ))
  | .finite _ _, .negInf => true
  | .negInf, _ => false

/-- IEEE-style strict `<` comparison. -/
def FloatVal.ltB : FloatVal → FloatVal → Bool
  | .nan, _ => false
  | _, .nan => false
  | .negInf, .negInf => false
  | .negInf, _ => true
  | .finite _ _, .negInf => false
  | .finite n₁ d₁, .finite n₂ d₂ =>
    decide (n₁ * ((d₂ : ℕ) : ℤ) < n₂ * ((d₁ : ℕ) : ℤ))
  | .finite _ _, .posInf => true
  | .posInf, _ => false

/-- Predicate: the value is a finite number (not an infinity, not NaN). -/
def FloatVal.isFinite : FloatVal → Bool
  | .finite _ _ => true
  | _ => false

/-- Division of two integer columns as pandas performs it on int64 series:
the result is float64, so `a / 0` is `+inf` for positive `a`, `-inf` for
negative `a`, and NaN for `0 / 0`; for a nonzero divisor the exact value
`a / b` is kept as a fraction, normalised to a positive denominator. -/
def divFV (a b : ℤ) : FloatVal :=
  if hb : b = 0 then
    if a = 0 then .nan else if 0 < a then .posInf else .negInf
  else if hpos : 0 < b then .finite a ⟨b.toNat, by omega⟩
  else .finite (-a) ⟨(-b).toNat, by omega⟩

/-- Multiplication of a float cell by the literal factor 100 of the
DP Index formula; infinities and NaN absorb it. -/
def FloatVal.mul100 : FloatVal → FloatVal
  | .finite n d => .finite (n * 100) d
  | .posInf => .posInf
  | .negInf => .negInf
  | .nan => .nan

/-- Nearest integer to the fraction `n / d` with ties to even — the
rounding mode of numpy, which pandas `Series.round` uses. -/
def roundHalfEvenFrac (n : ℤ) (d : ℕ+) : ℤ :=
  let di : ℤ := ((d : ℕ) : ℤ)
  let f := Int.fdiv n di
  let r := n - f * di
  if 2 * r < di then f
  else if di < 2 * r then f + 1
  else if f % 2 = 0 then f else f + 1

/-- Round a float cell to two decimal places, as `Series.round(2)` does:
the fraction `n / d` becomes `round(n * 100 / d) / 100`; infinities and
NaN are unchanged by numpy rounding. -/
def FloatVal.round2FV : FloatVal → FloatVal
  | .finite n d => .finite (roundHalfEvenFrac (n * 100) d) (100 : ℕ+)
  | .posInf => .posInf
  | .negInf => .negInf
  | .nan => .nan

/-- One row of a daily FINRA disclosure file, with the calendar date the
loader attaches inside the per-date loop; dates are modelled as
naturals ordered chronologically. -/
structure RawRow where
  symbol : String
  shortVolume : ℤ
  totalVolume : ℤ
  date : Nat
deriving DecidableEq, Repr

/-- A derived row, carrying the columns the processing blocks compute:
Bought, Sold, Total Volume, Buy-Sell Ratio and DP Index. -/
structure Row where
  symbol : String
  date : Nat
  bought : ℤ
  sold : ℤ
  totalVolumeDerived : ℤ
  ratio : FloatVal
  dpIndex : FloatVal
deriving DecidableEq

/-- The shared derivation block of the tabs:
Bought = ShortVolume, Sold = TotalVolume - ShortVolume,
Total Volume = Bought + Sold, Buy-Sell Ratio = Bought / Sold,
DP Index = (Bought / Total Volume * 100).round(2). -/
def derive (r : RawRow) : Row :=
  let bought := r.shortVolume
  let sold := r.totalVolume - r.shortVolume
  let total := bought + sold
  { symbol := r.symbol
    date := r.date
    bought := bought
    sold := sold
    totalVolumeDerived := total
    ratio := divFV bought sold
    dpIndex := ((divFV bought total).mul100).round2FV }

/-- The rolling accumulation flag at position `i` of a flag sequence,
mirroring `rolling(window=5, min_periods=5).sum() >= t`: with fewer than
five observations up to and including `i` the rolling sum is NaN and the
pandas comparison `NaN >= t` evaluates to False; otherwise it counts the
True flags among the five trailing observations. -/
def rollingAccumFlag (t : Nat) (flags : List Bool) (i : Nat) : Bool :=
  if i + 1 < 5 then false
  else decide (t ≤ ((flags.take (i + 1)).drop (i + 1 - 5)).count true)

/-- The whole rolling accumulation column over a flag sequence
(window 5, min_periods 5, threshold `t`). -/
def rollingAccum (t : Nat) (flags : List Bool) : List Bool :=
  (List.range flags.length).map (rollingAccumFlag t flags)

/-- Per-day accumulation condition of the Accumulation tab:
Buy-Sell Ratio > 1.25 and DP Index > 47. -/
def accumFlagAcc (r : Row) : Bool :=
  r.ratio.gtB (.finite 5 4) && r.dpIndex.gtB (.finite 47 1)

/-- Per-day accumulation condition of the Ticker Analysis and Accumulation
Analysis tabs: Buy-Sell Ratio > 1.25. -/
def accumFlagRatio (r : Row) : Bool :=
  r.ratio.gtB (.finite 5 4)

/-- Rolling Accumulation column of the Accumulation tab: the rolling count
runs over the whole concatenated multi-symbol frame, without any grouping
by symbol (threshold 3). -/
def tabs4RollingAccumulation (rows : List Row) : List Bool :=
  rollingAccum 3 (rows.map accumFlagAcc)

/-- Per-symbol rolling accumulation as the Accumulation Analysis tab
computes it with a `groupby` over Symbol and a `transform`: the flag of
row `i` is the rolling flag at the last position of the subsequence of
rows sharing the symbol of row `i`, taken in original order. -/
def groupedRollingAccumulation (t : Nat) (accum : Row → Bool)
    (rows : List Row) : List Bool :=
  (List.range rows.length).map (fun i =>
    match rows[i]? with
    | none => false
    | some ri =>
      let hist := ((rows.take (i + 1)).filter
        (fun r => r.symbol = ri.symbol)).map accum
      rollingAccumFlag t hist (hist.length - 1))

/-- Modelled from the spec: the per-symbol rolling accumulation the
Accumulation tab is specified to compute (grouping by symbol, window 5,
minimum true count 3, accumulation condition ratio > 1.25 and
DP Index > 47); the source applies the same rolling computation without
the grouping. -/
def tabs4GroupedRollingSpec (rows : List Row) : List Bool :=
  groupedRollingAccumulation 3 accumFlagAcc rows

/-- Outcome of one remote retrieval attempt performed by
`requests.get` plus `raise_for_status`. -/
inductive RemoteResult where
  | netFailure
  | httpError (code : Nat)
  | ok (payload : String)
deriving DecidableEq, Repr

/-- Environment of the fetch-or-cache layer: the persistent file cache
keyed by filename, the remote endpoint, and the CSV parser.  A `none`
parse models `pd.read_csv` raising on the payload. -/
structure FetchEnv where
  cache : String → Option String
  remote : String → RemoteResult
  parse : String → Option (List RawRow)

/-- What a call to `download_finra_data` does: returns parsed records,
returns `None` (no data), or raises an uncaught exception. -/
inductive FetchOutcome where
  | records (rows : List RawRow)
  | noData
  | exn
deriving DecidableEq, Repr

/-- The cache filename for a date key, `CNMSshvol{date:%Y%m%d}.txt`. -/
def finraFilename (dateKey : String) : String :=
  "CNMSshvol" ++ dateKey ++ ".txt"

/-- Embedding of `download_finra_data`: on a cache hit the cached payload
is parsed and returned; on a miss the remote is attempted once — a
request exception (network failure or non-success status raised by
`raise_for_status`) is caught and yields `None` with the cache unchanged,
while on a successful response the payload is first written to the cache
file and only then parsed, so a parse failure propagates as an exception
after the cache entry has been written. -/
def download_finra_data (env : FetchEnv) (dateKey : String) :
    FetchOutcome × (String → Option String) :=
  let fp := finraFilename dateKey
  match env.cache fp with
  | some payload =>
    (match env.parse payload with
     | some rows => .records rows
     | none => .exn, env.cache)
  | none =>
    match env.remote fp with
    | .netFailure => (.noData, env.cache)
    | .httpError _ => (.noData, env.cache)
    | .ok payload =>
      let cache1 := fun k => if k = fp then some payload else env.cache k
      match env.parse payload with
      | some rows => (.records rows, cache1)
      | none => (.exn, cache1)

/-- Insert `x` into a list, placing it before the first element `y` with
`le x y`; inserting before equal elements keeps earlier input elements
first, which gives the stable behaviour of the pandas multi-key sort. -/
def insertLe (le : α → α → Bool) (x : α) : List α → List α
  | [] => [x]
  | y :: ys => if le x y then x :: y :: ys else y :: insertLe le x ys

/-- Stable insertion sort by a boolean comparison. -/
def isortLe (le : α → α → Bool) : List α → List α
  | [] => []
  | x :: xs => insertLe le x (isortLe le xs)

theorem insertLe_perm (le : α → α → Bool) (x : α) (l : List α) :
    List.Perm (insertLe le x l) (x :: l) := by
  induction l with
  | nil => simp [insertLe]
  | cons y ys ih =>
    simp only [insertLe]
    by_cases h : le x y = true
    · simp [h]
    · simp only [h, if_false]
      exact List.Perm.trans (ih.cons y) (List.Perm.swap x y ys)

theorem isortLe_perm (le : α → α → Bool) (l : List α) :
    List.Perm (isortLe le l) l := by
  induction l with
  | nil => simp [isortLe]
  | cons x xs ih =>
    exact List.Perm.trans (insertLe_perm le x _) (ih.cons x)

theorem mem_isortLe (le : α → α → Bool) (l : List α) (a : α) :
    a ∈ isortLe le l ↔ a ∈ l :=
  (isortLe_perm le l).mem_iff

theorem length_isortLe (le : α → α → Bool) (l : List α) :
    (isortLe le l).length = l.length :=
  (isortLe_perm le l).length_eq

theorem insertLe_pairwise (le : α → α → Bool)
    (htot : ∀ a b, le a b = true ∨ le b a = true)
    (htrans : ∀ a b c, le a b = true → le b c = true → le a c = true)
    (x : α) (l : List α) (hl : l.Pairwise (fun a b => le a b = true)) :
    (insertLe le x l).Pairwise (fun a b => le a b = true) := by
  induction l with
  | nil => simp [insertLe]
  | cons y ys ih =>
    rcases List.pairwise_cons.mp hl with ⟨hy, hys⟩
    simp only [insertLe]
    by_cases h : le x y = true
    · simp only [h, if_true]
      refine List.pairwise_cons.mpr ⟨?_, hl⟩
      intro z hz
      rcases List.mem_cons.mp hz with rfl | hz
      · exact h
      · exact htrans x y z h (hy z hz)
    · simp only [h, if_false]
      refine List.pairwise_cons.mpr ⟨?_, ih hys⟩
      intro z hz
      rcases List.mem_cons.mp ((insertLe_perm le x ys).mem_iff.mp hz)
        with rfl | hzys
      · rcases htot z y with hxy | hyx
        · exact absurd hxy h
        · exact hyx
      · exact hy z hzys

theorem isortLe_pairwise (le : α → α → Bool)
    (htot : ∀ a b, le a b = true ∨ le b a = true)
    (htrans : ∀ a b c, le a b = true → le b c = true → le a c = true)
    (l : List α) :
    (isortLe le l).Pairwise (fun a b => le a b = true) := by
  induction l with
  | nil => simp [isortLe]
  | cons x xs ih => exact insertLe_pairwise le htot htrans x _ ih

/-- Two lists sorted by the same comparison are equal as soon as they are
permutations of each other and the comparison is antisymmetric on the
elements involved. -/
theorem sorted_perm_eq (le : α → α → Bool) :
    ∀ (l₁ l₂ : List α), List.Perm l₁ l₂ →
    l₁.Pairwise (fun a b => le a b = true) →
    l₂.Pairwise (fun a b => le a b = true) →
    (∀ x ∈ l₁, ∀ y ∈ l₁, le x y = true → le y x = true → x = y) →
    l₁ = l₂
  | [], l₂, hp, _, _, _ => (hp.symm.eq_nil).symm
  | _ :: _, [], hp, _, _, _ => hp.eq_nil
  | a :: t₁, b :: t₂, hp, hs₁, hs₂, hanti => by
    rcases List.pairwise_cons.mp hs₁ with ⟨ha, ht₁⟩
    rcases List.pairwise_cons.mp hs₂ with ⟨hb, ht₂⟩
    have hab : a = b := by
      have hmem_a : a ∈ b :: t₂ := hp.mem_iff.mp (by simp)
      have hmem_b : b ∈ a :: t₁ := hp.mem_iff.mpr (by simp)
      rcases List.mem_cons.mp hmem_a with h | h
      · exact h
      · rcases List.mem_cons.mp hmem_b with h2 | h2
        · exact h2.symm
        · exact hanti a (by simp) b (by simp [h2])
            (ha b h2) (hb a h)
    subst hab
    have ht : List.Perm t₁ t₂ := hp.cons_inv
    have : t₁ = t₂ :=
      sorted_perm_eq le t₁ t₂ ht ht₁ ht₂
        (fun x hx y hy => hanti x (by simp [hx]) y (by simp [hy]))
    rw [this]

/-- Three-way comparison of two float cells in the order
`sort_values(ascending=False)` ranks them: larger values first, NaN
placed last (the default na_position). -/
def fvCmpDesc (a b : FloatVal) : Ordering :=
  match a, b with
  | .nan, .nan => .eq
  | .nan, _ => .gt
  | _, .nan => .lt
  | .posInf, .posInf => .eq
  | .posInf, _ => .lt
  | _, .posInf => .gt
  | .negInf, .negInf => .eq
  | .negInf, _ => .gt
  | _, .negInf => .lt
  | .finite n₁ d₁, .finite n₂ d₂ =>
    compare (n₂ * ((d₁ : ℕ) : ℤ)) (n₁ * ((d₂ : ℕ) : ℤ))

/-- Row comparator of the Volume Buy/Sell blocks:
`sort_values` by (Buy-Sell Ratio, DP Index, volume column) with
descending order; the volume column is Bought in buy mode and Sold in
sell mode, selected by the `volume` accessor argument. -/
def cmpVB (volume : Row → ℤ) : Row → Row → Ordering :=
  compareLex (fun a b => fvCmpDesc a.ratio b.ratio)
    (compareLex (fun a b => fvCmpDesc a.dpIndex b.dpIndex)
      (fun a b => compare (volume b) (volume a)))

/-- Row comparator of the Filter Analysis and Accumulation tabs:
`sort_values` by (Date, Buy-Sell Ratio, DP Index, volume column) with
descending order. -/
def cmpFA (volume : Row → ℤ) : Row → Row → Ordering :=
  compareLex (fun a b => compare b.date a.date) (cmpVB volume)

/-- Boolean comparison used to sort by the Volume Buy/Sell comparator. -/
def rleVB (volume : Row → ℤ) (a b : Row) : Bool :=
  (cmpVB volume a b).isLE

/-- Boolean comparison used to sort by the Filter Analysis comparator. -/
def rleFA (volume : Row → ℤ) (a b : Row) : Bool :=
  (cmpFA volume a b).isLE

/-- Boolean comparison for the descending `sort_values` by Date
of the Ticker Analysis display step. -/
def rleDate (a b : Row) : Bool := decide (b.date ≤ a.date)

/-- Price filter shared by the tabs: enrich the row with the closing
price looked up for its symbol and keep it only when a price exists and
exceeds the threshold (a missing price is NaN, and `NaN > t` is false). -/
def priceOk (prices : String → Option ℚ) (pt : ℚ) (r : Row) : Bool :=
  match prices r.symbol with
  | some p => decide (pt < p)
  | none => false

/-- Volume Buy analysis block (tabs[2], Buy Volume Analysis button):
derive, volume filter on Bought and Sold, ratio filter
(Buy-Sell Ratio > 1.5), sort descending by (ratio, DP Index, Bought),
truncate with head(100), then fetch closing prices and keep rows whose
price exceeds the threshold. -/
def volumeBuyPipeline (prices : String → Option ℚ) (mv : ℤ) (pt : ℚ)
    (raws : List RawRow) : List Row :=
  let d := raws.map derive
  let d := d.filter (fun r => decide (mv ≤ r.bought) && decide (mv ≤ r.sold))
  let d := d.filter (fun r => r.ratio.gtB (.finite 3 2))
  let top := (isortLe (rleVB (fun r => r.bought)) d).take 100
  top.filter (priceOk prices pt)

/-- Modelled from the spec: the Volume Buy analysis with its steps in the
order the specification fixes — volume filter, ratio filter, price
enrichment and price filter, then sort, then truncation to the cap as
the last step. -/
def volumeBuySpecOrder (prices : String → Option ℚ) (mv : ℤ) (pt : ℚ)
    (raws : List RawRow) : List Row :=
  let d := raws.map derive
  let d := d.filter (fun r => decide (mv ≤ r.bought) && decide (mv ≤ r.sold))
  let d := d.filter (fun r => r.ratio.gtB (.finite 3 2))
  let d := d.filter (priceOk prices pt)
  (isortLe (rleVB (fun r => r.bought)) d).take 100

/-- Date-window filter of the Filter Analysis, Accumulation Analysis and
Buy Signal tabs: keep rows dated on or after the cutoff. -/
def dateFilterGE (cut : Nat) (rows : List Row) : List Row :=
  rows.filter (fun r => decide (cut ≤ r.date))

/-- Date-window filter of the Accumulation tab (line
comparing the Date column strictly against the computed start date):
keep rows dated strictly after the cutoff. -/
def dateFilterGT (cut : Nat) (rows : List Row) : List Row :=
  rows.filter (fun r => decide (cut < r.date))

/-- Ranked sequence of derived rows of the Filter Analysis block
(tabs[5]): derive, volume filter, ratio filter (direction by buy/sell
mode), DP Index filter (same direction), date-window filter, price
enrichment and filter, then sort descending by (Date, ratio, DP Index,
Bought or Sold); no truncation step follows.  This is the projection of
the full table `filterAnalysisPipeline` onto the derived-row columns,
without the positional Cumulative Buying/Selling columns
(theorem `filterAnalysisPipeline_rows`). -/
def filterAnalysisRows (prices : String → Option ℚ) (mv : ℤ) (pt : ℚ)
    (bsr : FloatVal) (dpi : FloatVal) (cut : Nat) (buy : Bool)
    (raws : List RawRow) : List Row :=
  let d := raws.map derive
  let d := d.filter (fun r => decide (mv ≤ r.bought) && decide (mv ≤ r.sold))
  let d := if buy then d.filter (fun r => r.ratio.geB bsr)
    else d.filter (fun r => r.ratio.leB bsr)
  let d := if buy then d.filter (fun r => r.dpIndex.geB dpi)
    else d.filter (fun r => r.dpIndex.leB dpi)
  let d := dateFilterGE cut d
  let d := d.filter (priceOk prices pt)
  if buy then isortLe (rleFA (fun r => r.bought)) d
  else isortLe (rleFA (fun r => r.sold)) d

/-- Row of the Filter Analysis table: a derived row together with the
Cumulative Buying and Cumulative Selling columns of the block.  The two
columns are integer-valued (pandas carries them as integer-valued
floats). -/
structure FARow where
  row : Row
  cumBuying : ℤ
  cumSelling : ℤ
deriving DecidableEq

/-- Helper for `attachCumulative`, carrying the row immediately before
the current one in the frame. -/
def attachCumulativeAux : Option Row → List Row → List FARow
  | _, [] => []
  | prev, r :: rs =>
    let pb := match prev with | some p => p.bought | none => 0
    let ps := match prev with | some p => p.sold | none => 0
    ⟨r, r.bought + pb, r.sold + ps⟩ :: attachCumulativeAux (some r) rs

/-- The Cumulative Buying and Cumulative Selling columns of the Filter
Analysis block: a positional `rolling(window=2, min_periods=1).sum()`
over Bought and Sold, computed over the frame in input order before any
filtering — each row gets its own volume plus the volume of the row
immediately before it in the frame, whatever the symbol or date of that
neighbour. -/
def attachCumulative (rows : List Row) : List FARow :=
  attachCumulativeAux none rows

/-- Lift a row predicate to a table row. -/
def onRow (p : Row → Bool) : FARow → Bool := fun r => p r.row

/-- Lift a row comparison to a table row. -/
def rleOnRow (le : Row → Row → Bool) : FARow → FARow → Bool :=
  fun a b => le a.row b.row

/-- Filter Analysis block (tabs[5]): derive, Cumulative Buying/Selling
(positional two-row rolling sums over the input-ordered frame), volume
filter, ratio filter (direction by buy/sell mode), DP Index filter
(same direction), date-window filter, price enrichment and filter, then
sort descending by (Date, ratio, DP Index, Bought or Sold); no
truncation step follows, and the displayed table carries the Cumulative
columns with the values computed before filtering. -/
def filterAnalysisPipeline (prices : String → Option ℚ) (mv : ℤ) (pt : ℚ)
    (bsr : FloatVal) (dpi : FloatVal) (cut : Nat) (buy : Bool)
    (raws : List RawRow) : List FARow :=
  let d := attachCumulative (raws.map derive)
  let d := d.filter
    (onRow (fun r => decide (mv ≤ r.bought) && decide (mv ≤ r.sold)))
  let d := if buy then d.filter (onRow (fun r => r.ratio.geB bsr))
    else d.filter (onRow (fun r => r.ratio.leB bsr))
  let d := if buy then d.filter (onRow (fun r => r.dpIndex.geB dpi))
    else d.filter (onRow (fun r => r.dpIndex.leB dpi))
  let d := d.filter (onRow (fun r => decide (cut ≤ r.date)))
  let d := d.filter (onRow (priceOk prices pt))
  if buy then isortLe (rleOnRow (rleFA (fun r => r.bought))) d
  else isortLe (rleOnRow (rleFA (fun r => r.sold))) d

theorem map_filter_comp {α β : Type} (f : α → β) (p : β → Bool)
    (l : List α) :
    (l.filter (fun a => p (f a))).map f = (l.map f).filter p := by
  induction l with
  | nil => rfl
  | cons x xs ih =>
    by_cases h : p (f x) <;> simp [List.filter_cons, h, ih]

theorem map_insertLe {α β : Type} (f : α → β) (le : β → β → Bool)
    (x : α) (l : List α) :
    (insertLe (fun a b => le (f a) (f b)) x l).map f
      = insertLe le (f x) (l.map f) := by
  induction l with
  | nil => rfl
  | cons y ys ih =>
    simp only [insertLe, List.map_cons]
    by_cases h : le (f x) (f y) <;> simp [h, ih, insertLe]

theorem map_isortLe {α β : Type} (f : α → β) (le : β → β → Bool)
    (l : List α) :
    (isortLe (fun a b => le (f a) (f b)) l).map f
      = isortLe le (l.map f) := by
  induction l with
  | nil => rfl
  | cons x xs ih =>
    simp only [isortLe, List.map_cons]
    rw [map_insertLe, ih]

theorem map_row_filter_onRow (p : Row → Bool) (l : List FARow) :
    ((l.filter (onRow p)).map (fun r => r.row))
      = (l.map (fun r => r.row)).filter p :=
  map_filter_comp (fun r => r.row) p l

theorem map_row_isortLe_onRow (le : Row → Row → Bool) (l : List FARow) :
    ((isortLe (rleOnRow le) l).map (fun r => r.row))
      = isortLe le (l.map (fun r => r.row)) :=
  map_isortLe (fun r => r.row) le l

theorem map_row_attachCumulativeAux (prev : Option Row) (l : List Row) :
    (attachCumulativeAux prev l).map (fun r => r.row) = l := by
  induction l generalizing prev with
  | nil => rfl
  | cons x xs ih => simp [attachCumulativeAux, ih]

theorem map_row_attachCumulative (l : List Row) :
    (attachCumulative l).map (fun r => r.row) = l :=
  map_row_attachCumulativeAux none l

/-- Dropping the Cumulative Buying/Selling columns from the Filter
Analysis table gives exactly the ranked sequence of derived rows. -/
theorem filterAnalysisPipeline_rows (prices : String → Option ℚ) (mv : ℤ)
    (pt : ℚ) (bsr dpi : FloatVal) (cut : Nat) (buy : Bool)
    (raws : List RawRow) :
    (filterAnalysisPipeline prices mv pt bsr dpi cut buy raws).map
        (fun r => r.row)
      = filterAnalysisRows prices mv pt bsr dpi cut buy raws := by
  cases buy <;>
    simp only [filterAnalysisPipeline, filterAnalysisRows, dateFilterGE,
      Bool.false_eq_true, ite_false, ite_true] <;>
    rw [map_row_isortLe_onRow, map_row_filter_onRow, map_row_filter_onRow,
      map_row_filter_onRow, map_row_filter_onRow, map_row_filter_onRow,
      map_row_attachCumulative]

/-- Display truncation of the Ticker Analysis tab:
`sort_values` by Date descending followed by `head(30)`. -/
def tickerDisplay (rows : List Row) : List Row :=
  (isortLe rleDate rows).take 30

/-- Per-day row of the Top Dark Pools tab before the ratio stage: the
tab computes Bought and Sold and applies the volume filter inside the
per-date loop, before any ratio is computed. -/
structure TDRow where
  symbol : String
  bought : ℤ
  sold : ℤ
  date : Nat
deriving DecidableEq, Repr

/-- Per-day processing of the Top Dark Pools tab: Bought = ShortVolume,
Sold = TotalVolume - ShortVolume, then keep rows with both at least the
minimum volume. -/
def topDPVolumeFilter (mv : ℤ) (raws : List RawRow) : List TDRow :=
  (raws.map (fun r =>
    ⟨r.symbol, r.shortVolume, r.totalVolume - r.shortVolume, r.date⟩)).filter
    (fun r => decide (mv ≤ r.bought) && decide (mv ≤ r.sold))

theorem fracLe_trans {n₁ n₂ n₃ : ℤ} {d₁ d₂ d₃ : ℕ+}
    (h1 : n₂ * ((d₁ : ℕ) : ℤ) ≤ n₁ * ((d₂ : ℕ) : ℤ))
    (h2 : n₃ * ((d₂ : ℕ) : ℤ) ≤ n₂ * ((d₃ : ℕ) : ℤ)) :
    n₃ * ((d₁ : ℕ) : ℤ) ≤ n₁ * ((d₃ : ℕ) : ℤ) := by
  have hd1 : (0 : ℤ) < ((d₁ : ℕ) : ℤ) := by exact_mod_cast d₁.pos
  have hd2 : (0 : ℤ) < ((d₂ : ℕ) : ℤ) := by exact_mod_cast d₂.pos
  have hd3 : (0 : ℤ) < ((d₃ : ℕ) : ℤ) := by exact_mod_cast d₃.pos
  have e1 := mul_le_mul_of_nonneg_right h1 hd3.le
  have e2 := mul_le_mul_of_nonneg_right h2 hd1.le
  have e3 : n₃ * ((d₁ : ℕ) : ℤ) * ((d₂ : ℕ) : ℤ)
      ≤ n₁ * ((d₃ : ℕ) : ℤ) * ((d₂ : ℕ) : ℤ) := by nlinarith
  exact le_of_mul_le_mul_right e3 hd2

theorem fvCmpDesc_symm (a b : FloatVal) :
    (fvCmpDesc a b).swap = fvCmpDesc b a := by
  cases a <;> cases b <;>
    first
      | rfl
      | exact (inferInstanceAs
          (Batteries.OrientedCmp (compare : ℤ → ℤ → Ordering))).symm _ _

theorem fvCmpDesc_le_trans {a b c : FloatVal} (h1 : fvCmpDesc a b ≠ .gt)
    (h2 : fvCmpDesc b c ≠ .gt) : fvCmpDesc a c ≠ .gt := by
  cases a <;> cases b <;> cases c <;>
    simp only [fvCmpDesc, ne_eq, compare_le_iff_le] at h1 h2 ⊢ <;>
    first
      | trivial
      | exact fracLe_trans h1 h2

instance : Batteries.OrientedCmp fvCmpDesc := ⟨fvCmpDesc_symm⟩

instance : Batteries.TransCmp fvCmpDesc :=
  { toOrientedCmp := ⟨fvCmpDesc_symm⟩
    le_trans := fun h1 h2 => fvCmpDesc_le_trans h1 h2 }

/-- Transport a lawful comparator along an accessor function. -/
theorem transCmpOn {β : Type} {cmp : β → β → Ordering}
    (h : Batteries.TransCmp cmp) (f : α → β) :
    Batteries.TransCmp (fun a b => cmp (f a) (f b)) :=
  { symm := fun a b => h.symm (f a) (f b)
    le_trans := fun h1 h2 => h.le_trans h1 h2 }

/-- A descending comparison through an accessor into a linear order is a
lawful comparator. -/
theorem transCmpOnDesc {β : Type} [LinearOrder β] (f : α → β) :
    Batteries.TransCmp (fun a b => compare (f b) (f a)) :=
  { symm := fun a b => Batteries.OrientedCmp.symm (f b) (f a)
    le_trans := fun h1 h2 => Batteries.TransCmp.le_trans h2 h1 }

theorem cmpVB_trans (volume : Row → ℤ) : Batteries.TransCmp (cmpVB volume) := by
  haveI i1 : Batteries.TransCmp (fun a b : Row => fvCmpDesc a.ratio b.ratio) :=
    transCmpOn inferInstance (fun r => r.ratio)
  haveI i2 : Batteries.TransCmp (fun a b : Row => fvCmpDesc a.dpIndex b.dpIndex) :=
    transCmpOn inferInstance (fun r => r.dpIndex)
  haveI i3 : Batteries.TransCmp (fun a b : Row => compare (volume b) (volume a)) :=
    transCmpOnDesc volume
  exact inferInstanceAs (Batteries.TransCmp (compareLex _ (compareLex _ _)))

theorem cmpFA_trans (volume : Row → ℤ) : Batteries.TransCmp (cmpFA volume) := by
  haveI i0 : Batteries.TransCmp (fun a b : Row => compare b.date a.date) :=
    transCmpOnDesc (fun r => r.date)
  haveI i1 : Batteries.TransCmp (cmpVB volume) := cmpVB_trans volume
  exact inferInstanceAs (Batteries.TransCmp (compareLex _ _))

theorem isLE_iff_ne_gt (o : Ordering) : o.isLE = true ↔ o ≠ .gt := by
  cases o <;> simp [Ordering.isLE]

/-- Totality of the boolean sort comparison induced by a lawful
comparator. -/
theorem isLE_total {cmp : α → α → Ordering} (h : Batteries.TransCmp cmp)
    (a b : α) : (cmp a b).isLE = true ∨ (cmp b a).isLE = true := by
  haveI := h
  rcases e : cmp a b with _ | _ | _
  · exact Or.inl (by simp [e, Ordering.isLE])
  · exact Or.inl (by simp [e, Ordering.isLE])
  · refine Or.inr ?_
    have : cmp b a = .lt := Batteries.OrientedCmp.cmp_eq_gt.mp e
    simp [this, Ordering.isLE]

/-- Transitivity of the boolean sort comparison induced by a lawful
comparator. -/
theorem isLE_trans {cmp : α → α → Ordering} (h : Batteries.TransCmp cmp)
    {a b c : α} (h1 : (cmp a b).isLE = true) (h2 : (cmp b c).isLE = true) :
    (cmp a c).isLE = true :=
  (isLE_iff_ne_gt _).mpr
    (h.le_trans ((isLE_iff_ne_gt _).mp h1) ((isLE_iff_ne_gt _).mp h2))

/-- Two-sided boolean comparison forces comparator equality. -/
theorem isLE_antisymm {cmp : α → α → Ordering} (h : Batteries.TransCmp cmp)
    {a b : α} (h1 : (cmp a b).isLE = true) (h2 : (cmp b a).isLE = true) :
    cmp a b = .eq := by
  haveI := h
  rcases e : cmp a b with _ | _ | _
  · have : cmp b a = .gt := Batteries.OrientedCmp.cmp_eq_gt.mpr e
    rw [this] at h2
    simp [Ordering.isLE] at h2
  · rfl
  · rw [e] at h1
    simp [Ordering.isLE] at h1

/-- Sorting the reversal of a list gives the same result as sorting the
list itself, provided the comparator separates the elements of the
list. -/
theorem isortLe_reverse_eq {cmp : α → α → Ordering}
    (hc : Batteries.TransCmp cmp) (l : List α)
    (hanti : ∀ x ∈ l, ∀ y ∈ l, cmp x y = .eq → x = y) :
    isortLe (fun a b => (cmp a b).isLE) l.reverse
      = isortLe (fun a b => (cmp a b).isLE) l := by
  set le := fun a b => (cmp a b).isLE with hle
  have htot : ∀ a b, le a b = true ∨ le b a = true := isLE_total hc
  have htrans : ∀ a b c, le a b = true → le b c = true → le a c = true :=
    fun _ _ _ h1 h2 => isLE_trans hc h1 h2
  have hperm : List.Perm (isortLe le l.reverse) (isortLe le l) :=
    ((isortLe_perm le l.reverse).trans (List.reverse_perm l)).trans
      (isortLe_perm le l).symm
  refine sorted_perm_eq le _ _ hperm
    (isortLe_pairwise le htot htrans _) (isortLe_pairwise le htot htrans _) ?_
  intro x hx y hy h1 h2
  have hx2 : x ∈ l := (List.reverse_perm l).mem_iff.mp
    ((mem_isortLe le l.reverse x).mp hx)
  have hy2 : y ∈ l := (List.reverse_perm l).mem_iff.mp
    ((mem_isortLe le l.reverse y).mp hy)
  exact hanti x hx2 y hy2 (isLE_antisymm hc h1 h2)

theorem length_rollingAccum (t : Nat) (flags : List Bool) :
    (rollingAccum t flags).length = flags.length := by
  simp [rollingAccum]

/-- C5: for every symbol, RollingAccumulationFlag is False at every record
having fewer than the window length (5) of prior-or-current observations
for that symbol, whatever the AccumulationFlag values are: with
min_periods 5 the rolling sum is NaN there and the comparison against the
minimum count yields False, never True and never a missing value. -/
theorem C5_insufficient_window_false (t : Nat) (flags : List Bool) (i : Nat)
    (hi : i < flags.length) (hw : i + 1 < 5) :
    (rollingAccum t flags).getD i true = false := by
  unfold rollingAccum
  rw [List.getD_eq_getElem?_getD, List.getElem?_map, List.getElem?_range hi]
  simp [rollingAccumFlag, hw]

/-- Witness for C5: four all-True observations still give a False flag at
the fourth position. -/
theorem C5_insufficient_window_false_witness :
    (rollingAccum 5 [true, true, true, true]).getD 3 true = false :=
  C5_insufficient_window_false 5 [true, true, true, true] 3
    (by decide) (by decide)

/-- C6: a record with Sold = 0 and Bought > 0 has an infinite Buy-Sell
Ratio; a buy-mode ratio filter with any finite threshold accepts it and a
sell-mode ratio filter with any finite threshold rejects it, following
IEEE comparison semantics. -/
theorem C6_degenerate_ratio (raw : RawRow)
    (hzero : raw.totalVolume = raw.shortVolume) (hpos : 0 < raw.shortVolume)
    (tN : ℤ) (tD : ℕ+) :
    (derive raw).ratio.geB (.finite tN tD) = true ∧
    (derive raw).ratio.leB (.finite tN tD) = false := by
  have hratio : (derive raw).ratio = .posInf := by
    simp only [derive, divFV]
    rw [hzero]
    simp [hpos.ne', hpos]
  rw [hratio]
  exact ⟨rfl, rfl⟩

/-- Witness for C6: Bought = 500000, Sold = 0 passes the buy filter at
threshold 1.5 and fails the sell filter at threshold 0.5. -/
theorem C6_degenerate_ratio_witness :
    (derive ⟨"GME", 500000, 500000, 1⟩).ratio.geB (.finite 3 2) = true ∧
    (derive ⟨"GME", 500000, 500000, 1⟩).ratio.leB (.finite 1 2) = false :=
  ⟨(C6_degenerate_ratio ⟨"GME", 500000, 500000, 1⟩ rfl (by decide) 3 2).1,
   (C6_degenerate_ratio ⟨"GME", 500000, 500000, 1⟩ rfl (by decide) 1 2).2⟩

/-- C7: derivation preserves the volume identity — Bought + Sold equals
the derived Total Volume, which equals the raw TotalVolume. -/
theorem C7_volume_identity (r : RawRow)
    (_hs : 0 ≤ r.shortVolume) (_ht : 0 ≤ r.totalVolume) :
    (derive r).bought + (derive r).sold = (derive r).totalVolumeDerived ∧
    (derive r).totalVolumeDerived = r.totalVolume := by
  refine ⟨rfl, ?_⟩
  simp [derive]

/-- Witness for C7 at ShortVolume = 2, TotalVolume = 3. -/
theorem C7_volume_identity_witness :
    (derive ⟨"SPY", 2, 3, 1⟩).bought + (derive ⟨"SPY", 2, 3, 1⟩).sold
        = (derive ⟨"SPY", 2, 3, 1⟩).totalVolumeDerived ∧
    (derive ⟨"SPY", 2, 3, 1⟩).totalVolumeDerived = (3 : ℤ) :=
  C7_volume_identity ⟨"SPY", 2, 3, 1⟩ (by decide) (by decide)

/-- C10: in Top Dark Pools the per-day volume filter precedes the ratio
computation, so with a positive minimum volume every surviving row has
positive Sold and its Buy-Sell Ratio is a finite value — the
division-by-zero branch is unreachable. -/
theorem C10_topDP_ratio_finite (mv : ℤ) (raws : List RawRow) (r : TDRow)
    (hmv : 0 < mv) (hr : r ∈ topDPVolumeFilter mv raws) :
    0 < r.sold ∧ (divFV r.bought r.sold).isFinite = true := by
  rcases List.mem_filter.mp hr with ⟨_, hcond⟩
  have hsold : mv ≤ r.sold := by
    simp only [Bool.and_eq_true, decide_eq_true_eq] at hcond
    exact hcond.2
  have hpos : 0 < r.sold := lt_of_lt_of_le hmv hsold
  refine ⟨hpos, ?_⟩
  simp [divFV, hpos.ne', hpos, FloatVal.isFinite]

/-- Witness for C10: minimum volume 1, one raw row with ShortVolume 2 and
TotalVolume 3. -/
theorem C10_topDP_ratio_finite_witness :
    0 < (⟨"A", 2, 1, 1⟩ : TDRow).sold ∧ (divFV 2 1).isFinite = true :=
  C10_topDP_ratio_finite 1 [⟨"A", 2, 3, 1⟩] ⟨"A", 2, 1, 1⟩
    (by decide) (by decide)

/-- Multi-symbol input for the Accumulation tab rolling computation:
four records of symbol A followed by one record of symbol B, all with
accumulating volumes (ratio 2 > 1.25, DP Index 66.67 > 47). -/
def rawsC1a : List RawRow :=
  [⟨"A", 2, 3, 1⟩, ⟨"A", 2, 3, 2⟩, ⟨"A", 2, 3, 3⟩, ⟨"A", 2, 3, 4⟩,
   ⟨"B", 2, 3, 5⟩]

/-- The same input where the records of symbol A no longer accumulate
(ratio 1) while the single record of symbol B is unchanged. -/
def rawsC1b : List RawRow :=
  [⟨"A", 1, 2, 1⟩, ⟨"A", 1, 2, 2⟩, ⟨"A", 1, 2, 3⟩, ⟨"A", 1, 2, 4⟩,
   ⟨"B", 2, 3, 5⟩]

/-- C1: the Accumulation tab computes the rolling accumulation count over
the whole concatenated multi-symbol frame without grouping by symbol, so
the flag of the only record of symbol B flips from True to False when
only the records of symbol A change; the per-symbol computation the
specification
describes gives False for that record in both inputs. -/
theorem C1_tabs4_rolling_crosses_symbols :
    tabs4RollingAccumulation (rawsC1a.map derive)
        = [false, false, false, false, true] ∧
    tabs4RollingAccumulation (rawsC1b.map derive)
        = [false, false, false, false, false] ∧
    tabs4GroupedRollingSpec (rawsC1a.map derive)
        = [false, false, false, false, false] := by
  decide

/-- Fetch environment with an empty cache and a remote that answers with
a payload the CSV parser rejects. -/
def envC3 : FetchEnv :=
  { cache := fun _ => none
    remote := fun _ => .ok "garbled"
    parse := fun _ => none }

/-- Counterexample to C3: on a cache miss whose single remote attempt
returns a successful response with an unparsable payload, the fetch does
not return "no data" (the parse error propagates) and it does write a
cache entry for the date. -/
theorem C3_counterexample :
    (download_finra_data envC3 "20240105").1 ≠ FetchOutcome.noData ∧
    (download_finra_data envC3 "20240105").2 (finraFilename "20240105")
      ≠ none := by
  decide

/-- C3 (amended): on a cache miss, a single remote attempt is made; a
network failure or a non-success HTTP status is caught and yields "no
data" with the cache unchanged, so a later call retries; on a successful
response, the raw payload is written to the cache before parsing, so it
is cached even when parsing then fails. -/
theorem C3_fetch_failure_behaviour (env : FetchEnv) (dateKey : String)
    (hmiss : env.cache (finraFilename dateKey) = none) :
    ((env.remote (finraFilename dateKey) = .netFailure ∨
        ∃ c, env.remote (finraFilename dateKey) = .httpError c) →
      (download_finra_data env dateKey).1 = FetchOutcome.noData ∧
      (download_finra_data env dateKey).2 = env.cache) ∧
    (∀ payload, env.remote (finraFilename dateKey) = .ok payload →
      (download_finra_data env dateKey).2 (finraFilename dateKey)
        = some payload) := by
  constructor
  · rintro (hr | ⟨c, hr⟩) <;> simp [download_finra_data, hmiss, hr]
  · intro p hp
    cases hpp : env.parse p <;>
      simp [download_finra_data, hmiss, hp, hpp]

/-- Fetch environment with an empty cache and an unreachable remote. -/
def envC3w : FetchEnv :=
  { cache := fun _ => none
    remote := fun _ => .netFailure
    parse := fun _ => none }

/-- Witness for the amended C3: a network failure on a cache miss yields
"no data" and leaves the cache unchanged. -/
theorem C3_fetch_failure_behaviour_witness :
    (download_finra_data envC3w "20240106").1 = FetchOutcome.noData ∧
    (download_finra_data envC3w "20240106").2 = envC3w.cache :=
  (C3_fetch_failure_behaviour envC3w "20240106" rfl).1 (Or.inl rfl)

/-- Counterexample to C8: in the Accumulation tab the date-window filter
uses a strict comparison, so a row dated exactly the computed start date
does not survive. -/
theorem C8_counterexample :
    derive ⟨"A", 2, 3, 5⟩ ∉ dateFilterGT 5 [derive ⟨"A", 2, 3, 5⟩] := by
  decide

/-- C8 (amended): the Filter Analysis, Accumulation Analysis and Buy
Signal date filters keep exactly the rows dated on or after the cutoff,
so a row dated exactly the cutoff survives; the Accumulation tab keeps
exactly the rows dated strictly after the cutoff, so there the boundary
row is dropped. -/
theorem C8_date_window_filters (cut : Nat) (rows : List Row) (r : Row) :
    (r ∈ dateFilterGE cut rows ↔ r ∈ rows ∧ cut ≤ r.date) ∧
    (r ∈ dateFilterGT cut rows ↔ r ∈ rows ∧ cut < r.date) := by
  constructor <;> simp [dateFilterGE, dateFilterGT, List.mem_filter]

/-- Price oracle that quotes only symbol X. -/
def pricesC2 : String → Option ℚ := fun s => if s = "X" then some 1 else none

/-- One ratio-1.75 row of symbol X followed by one hundred ratio-2 rows
of symbol R: X sorts below the one hundredth position. -/
def rawsC2 : List RawRow :=
  ⟨"X", 7, 11, 1⟩ :: List.replicate 100 ⟨"R", 2, 3, 1⟩

/-- Counterexample to C2: the Volume Buy block truncates to 100 rows
before fetching prices and filtering on them, so the priced row X (cut
away at position 101) is lost, while running the price filter before
sorting and truncation as the claim orders the steps keeps it. -/
theorem C2_counterexample :
    volumeBuyPipeline pricesC2 0 0 rawsC2
      ≠ volumeBuySpecOrder pricesC2 0 0 rawsC2 := by
  decide

/-- C2 (amended): in the Volume Buy analysis the steps run in the order
volume filter, ratio filter, sort, truncation to 100, price enrichment,
price filter — the price filter is the last step and runs after
truncation; consequently the result never exceeds the cap and every
result row passes the volume, ratio and price filters, but fewer than
cap rows can be returned even when price-passing rows existed below the
truncation cut. -/
theorem C2_volume_buy_pipeline_order (prices : String → Option ℚ) (mv : ℤ)
    (pt : ℚ) (raws : List RawRow) :
    (volumeBuyPipeline prices mv pt raws).length ≤ 100 ∧
    (volumeBuyPipeline prices mv pt raws).all
      (fun r => decide (mv ≤ r.bought) && decide (mv ≤ r.sold)
        && r.ratio.gtB (.finite 3 2) && priceOk prices pt r) = true := by
  simp only [volumeBuyPipeline]
  refine ⟨le_trans (List.length_filter_le _ _) (List.length_take_le _ _), ?_⟩
  rw [List.all_eq_true]
  intro r hr
  rcases List.mem_filter.mp hr with ⟨hrt, hp⟩
  have hrs := List.take_subset 100 _ hrt
  have hr2 := (mem_isortLe _ _ r).mp hrs
  rcases List.mem_filter.mp hr2 with ⟨hr1, hq⟩
  rcases List.mem_filter.mp hr1 with ⟨_, hv⟩
  simp only [Bool.and_eq_true] at hv hq hp ⊢
  exact ⟨⟨hv, hq⟩, hp⟩

/-- Price oracle that quotes every symbol. -/
def pricesC4 : String → Option ℚ := fun _ => some 1

/-- One hundred and one identical rows that pass every Filter Analysis
filter. -/
def rawsC4 : List RawRow := List.replicate 101 ⟨"R", 2, 3, 5⟩

/-- Counterexample to C4: the Filter Analysis mode has no truncation
step, so its result grows with the input and exceeds both caps the claim
allows. -/
theorem C4_counterexample :
    100 < (filterAnalysisPipeline pricesC4 0 0 (.finite 5 4) (.finite 50 1)
      5 true rawsC4).length := by
  decide

/-- C4 (amended): the Volume Buy result is capped at 100 rows and the
Ticker Analysis display at 30 rows, but the Filter Analysis result has
no cap — it is bounded only by the input size. -/
theorem C4_result_caps (prices : String → Option ℚ) (mv : ℤ) (pt : ℚ)
    (bsr dpi : FloatVal) (cut : Nat) (buy : Bool) (raws : List RawRow)
    (rows : List Row) :
    (volumeBuyPipeline prices mv pt raws).length ≤ 100 ∧
    (tickerDisplay rows).length ≤ 30 ∧
    (filterAnalysisPipeline prices mv pt bsr dpi cut buy raws).length
      ≤ raws.length := by
  refine ⟨?_, ?_, ?_⟩
  · simp only [volumeBuyPipeline]
    exact le_trans (List.length_filter_le _ _) (List.length_take_le _ _)
  · simp only [tickerDisplay]
    exact List.length_take_le _ _
  · have hattach : (attachCumulative (raws.map derive)).length
        = raws.length := by
      calc (attachCumulative (raws.map derive)).length
          = ((attachCumulative (raws.map derive)).map
              (fun r => r.row)).length := (List.length_map _ _).symm
        _ = (raws.map derive).length := by rw [map_row_attachCumulative]
        _ = raws.length := List.length_map _ _
    have hbase : ∀ le : FARow → FARow → Bool,
        ∀ p₁ p₂ p₃ p₄ p₅ : FARow → Bool,
        (isortLe le ((((((attachCumulative (raws.map derive)).filter
          p₁).filter p₂).filter p₃).filter p₄).filter p₅)).length
          ≤ raws.length := by
      intro le p₁ p₂ p₃ p₄ p₅
      rw [length_isortLe]
      refine le_trans (List.length_filter_le _ _)
        (le_trans (List.length_filter_le _ _)
          (le_trans (List.length_filter_le _ _)
            (le_trans (List.length_filter_le _ _)
              (le_trans (List.length_filter_le _ _)
                (le_of_eq hattach)))))
    cases buy <;>
      simp only [filterAnalysisPipeline, if_pos, if_neg,
        Bool.false_eq_true, ite_false, ite_true] <;>
      exact hbase _ _ _ _ _ _

theorem filter5_subset (l : List Row) (p₁ p₂ p₃ p₄ p₅ : Row → Bool) :
    ∀ r, r ∈ ((((l.filter p₁).filter p₂).filter p₃).filter p₄).filter p₅ →
      r ∈ l := by
  intro r h
  exact (List.mem_filter.mp (List.mem_filter.mp (List.mem_filter.mp
    (List.mem_filter.mp (List.mem_filter.mp h).1).1).1).1).1

/-- Price oracle quoting every symbol, for the C9 inputs. -/
def pricesC9 : String → Option ℚ := fun _ => some 1

/-- Two rows of different symbols carrying identical numbers, hence tied
on the whole Filter Analysis sort-key tuple. -/
def rawsC9 : List RawRow := [⟨"A", 2, 3, 5⟩, ⟨"B", 2, 3, 5⟩]

/-- Two rows with distinct dates, hence pairwise separated by the Filter
Analysis sort-key tuple. -/
def rawsC9d : List RawRow := [⟨"A", 2, 3, 6⟩, ⟨"B", 2, 3, 5⟩]

/-- Counterexample to C9, in both regimes: with two rows tied on every
sort key the stable sort keeps input order, so reversing the input
reverses them in the final table; and even with pairwise-distinct sort
keys the final tables differ, because the Cumulative Buying/Selling
columns are positional rolling sums over the input order — while the
ranked sequence of derived rows is the same in that case. -/
theorem C9_counterexample :
    (filterAnalysisPipeline pricesC9 0 0 (.finite 5 4) (.finite 50 1)
        5 true rawsC9.reverse
      ≠ filterAnalysisPipeline pricesC9 0 0 (.finite 5 4) (.finite 50 1)
        5 true rawsC9) ∧
    (filterAnalysisPipeline pricesC9 0 0 (.finite 5 4) (.finite 50 1)
        5 true rawsC9d.reverse
      ≠ filterAnalysisPipeline pricesC9 0 0 (.finite 5 4) (.finite 50 1)
        5 true rawsC9d) ∧
    ((filterAnalysisPipeline pricesC9 0 0 (.finite 5 4) (.finite 50 1)
        5 true rawsC9d.reverse).map (fun r => r.row)
      = (filterAnalysisPipeline pricesC9 0 0 (.finite 5 4) (.finite 50 1)
        5 true rawsC9d).map (fun r => r.row)) := by
  refine ⟨by decide, by decide, by decide⟩

theorem filterAnalysisRows_reverse_eq (prices : String → Option ℚ)
    (mv : ℤ) (pt : ℚ) (bsr dpi : FloatVal) (cut : Nat) (buy : Bool)
    (raws : List RawRow)
    (hsep : ∀ x ∈ raws.map derive, ∀ y ∈ raws.map derive,
      cmpFA (fun r => if buy then r.bought else r.sold) x y = .eq →
        x = y) :
    filterAnalysisRows prices mv pt bsr dpi cut buy raws.reverse
      = filterAnalysisRows prices mv pt bsr dpi cut buy raws := by
  cases buy
  all_goals
    simp only [filterAnalysisRows, dateFilterGE, Bool.false_eq_true,
      ite_false, ite_true]
    rw [List.map_reverse, List.filter_reverse, List.filter_reverse,
      List.filter_reverse, List.filter_reverse, List.filter_reverse]
    exact isortLe_reverse_eq (cmpFA_trans _) _
      (fun x hx y hy h =>
        hsep x (filter5_subset _ _ _ _ _ _ x hx)
          y (filter5_subset _ _ _ _ _ _ y hy) h)

/-- C9 (amended): on inputs whose rows are pairwise separated by the
sort-key tuple of the mode (Date, Buy-Sell Ratio, DP Index, Bought or
Sold, all descending), reversing the input leaves the ranked sequence
of derived rows of the Filter Analysis table unchanged — but not the
table itself: its Cumulative Buying/Selling columns are positional
two-row rolling sums over the input-ordered frame and change under
reversal, and rows tied on the whole tuple moreover keep input order
under the stable sort, so reversal reorders them. -/
theorem C9_reversal_with_distinct_keys (prices : String → Option ℚ)
    (mv : ℤ) (pt : ℚ) (bsr dpi : FloatVal) (cut : Nat) (buy : Bool)
    (raws : List RawRow)
    (hsep : ∀ x ∈ raws.map derive, ∀ y ∈ raws.map derive,
      cmpFA (fun r => if buy then r.bought else r.sold) x y = .eq →
        x = y) :
    (filterAnalysisPipeline prices mv pt bsr dpi cut buy
        raws.reverse).map (fun r => r.row)
      = (filterAnalysisPipeline prices mv pt bsr dpi cut buy raws).map
        (fun r => r.row) := by
  rw [filterAnalysisPipeline_rows, filterAnalysisPipeline_rows]
  exact filterAnalysisRows_reverse_eq prices mv pt bsr dpi cut buy
    raws hsep

/-- Witness for the amended C9: two rows with distinct dates — reversing
the input leaves the ranked sequence of derived rows unchanged. -/
theorem C9_reversal_with_distinct_keys_witness :
    (filterAnalysisPipeline pricesC9 0 0 (.finite 5 4) (.finite 50 1)
        5 true rawsC9d.reverse).map (fun r => r.row)
      = (filterAnalysisPipeline pricesC9 0 0 (.finite 5 4) (.finite 50 1)
        5 true rawsC9d).map (fun r => r.row) :=
  C9_reversal_with_distinct_keys pricesC9 0 0 (.finite 5 4) (.finite 50 1)
    5 true rawsC9d (by decide)

end Finra
